import Mathlib

/-!
Verification of the dcs package importer (Go) against its specification.

The importer accepts Debian source packages over HTTP (`importPackage`),
unpacks and indexes them in a pool of workers (`unpackAndIndex`, built
around a `filepath.Walk` callback), and merges per-package index shards
on demand (`mergeToShard`).  We embed the relevant functions as pure
Lean functions.  Go byte strings are modelled as `List Nat` (one `Nat`
per byte); outcomes of filesystem and index-builder calls that the code
inspects are passed in as explicit booleans.
-/

/-- Go strings are byte strings; we model them as lists of bytes. -/
abbrev Str := List Nat

/-- Byte encoding of an ASCII Lean string literal (for ASCII strings this
is exactly the UTF-8 byte sequence Go would store). -/
def strBytes (s : String) : Str := s.data.map Char.toNat

/-- Unix path separator test, as in Go `os.IsPathSeparator` ('/' is 47). -/
def isSep (b : Nat) : Bool := b == 47

/-- Go `strings.HasSuffix s suffix`. -/
def hasSuffix (s suffix : Str) : Bool := List.isSuffixOf suffix s

/-- The file part of Go `filepath.Split`: everything after the final
separator (no trailing-separator stripping). -/
def splitBase (p : Str) : Str := (p.reverse.takeWhile (fun b => !isSep b)).reverse

/-- Go `filepath.Base` (Unix, empty volume name): "." for the empty path,
"/" if the path is all separators, otherwise the last element after
stripping trailing separators. -/
def filepathBase (p : Str) : Str :=
  if p.isEmpty then strBytes "."
  else
    let p1 := (p.reverse.dropWhile isSep).reverse
    if p1.isEmpty then [47]
    else splitBase p1

/-- Split a byte string into segments at separator bytes (helper for
`filepathClean`). -/
def splitSegsAux : Str → Str → List Str
  | [], cur => [cur.reverse]
  | b :: rest, cur =>
    if isSep b then cur.reverse :: splitSegsAux rest []
    else splitSegsAux rest (b :: cur)

/-- Segments of a path between separators. -/
def splitSegs (p : Str) : List Str := splitSegsAux p []

/-- One step of Go `filepath.Clean`'s element processing: skip empty and
"." segments, let ".." pop the previous segment (or survive / vanish at
the front depending on rootedness).  The accumulator holds the output
segments in reverse order. -/
def cleanStep (rooted : Bool) (acc : List Str) (seg : Str) : List Str :=
  if seg.isEmpty || seg == [46] then acc
  else if seg == [46, 46] then
    match acc with
    | [] => if rooted then [] else [seg]
    | prev :: rest => if prev == [46, 46] then seg :: acc else rest
  else seg :: acc

/-- Go `filepath.Clean` (Unix, empty volume name), implemented on the
path's separator-split segments; semantically equal to Go's byte-wise
loop. -/
def filepathClean (p : Str) : Str :=
  let rooted : Bool := match p with | b :: _ => isSep b | [] => false
  let out := ((splitSegs p).foldl (cleanStep rooted) []).reverse
  let body := List.intercalate [47] out
  if rooted then 47 :: body
  else if body.isEmpty then [46]
  else body

/-- Go `filepath.Dir`: drop the final element, then Clean. -/
def filepathDir (p : Str) : Str :=
  filepathClean ((p.reverse.dropWhile (fun b => !isSep b)).reverse)

/-- Go `filepath.Join` on two elements: join the non-empty elements with
a separator and Clean the result ("" when both are empty). -/
def filepathJoin (a b : Str) : Str :=
  if a.isEmpty && b.isEmpty then []
  else if a.isEmpty then filepathClean b
  else if b.isEmpty then filepathClean a
  else filepathClean (a ++ 47 :: b)

/-- Go `utf8.ValidString` on the byte string: standard UTF-8 validation
with the surrogate and overlong restrictions Go enforces (acceptance
ranges per first byte as in `utf8.acceptRanges`). -/
def utf8Valid : Str → Bool
  | [] => true
  | b :: rest =>
    if b < 0x80 then utf8Valid rest
    else if 0xC2 ≤ b && b ≤ 0xDF then
      match rest with
      | c1 :: rest1 => (0x80 ≤ c1 && c1 ≤ 0xBF) && utf8Valid rest1
      | [] => false
    else if b == 0xE0 then
      match rest with
      | c1 :: c2 :: rest2 =>
        (0xA0 ≤ c1 && c1 ≤ 0xBF) && (0x80 ≤ c2 && c2 ≤ 0xBF) && utf8Valid rest2
      | _ => false
    else if (0xE1 ≤ b && b ≤ 0xEC) || b == 0xEE || b == 0xEF then
      match rest with
      | c1 :: c2 :: rest2 =>
        (0x80 ≤ c1 && c1 ≤ 0xBF) && (0x80 ≤ c2 && c2 ≤ 0xBF) && utf8Valid rest2
      | _ => false
    else if b == 0xED then
      match rest with
      | c1 :: c2 :: rest2 =>
        (0x80 ≤ c1 && c1 ≤ 0x9F) && (0x80 ≤ c2 && c2 ≤ 0xBF) && utf8Valid rest2
      | _ => false
    else if b == 0xF0 then
      match rest with
      | c1 :: c2 :: c3 :: rest3 =>
        (0x90 ≤ c1 && c1 ≤ 0xBF) && (0x80 ≤ c2 && c2 ≤ 0xBF) &&
          (0x80 ≤ c3 && c3 ≤ 0xBF) && utf8Valid rest3
      | _ => false
    else if 0xF1 ≤ b && b ≤ 0xF3 then
      match rest with
      | c1 :: c2 :: c3 :: rest3 =>
        (0x80 ≤ c1 && c1 ≤ 0xBF) && (0x80 ≤ c2 && c2 ≤ 0xBF) &&
          (0x80 ≤ c3 && c3 ≤ 0xBF) && utf8Valid rest3
      | _ => false
    else if b == 0xF4 then
      match rest with
      | c1 :: c2 :: c3 :: rest3 =>
        (0x80 ≤ c1 && c1 ≤ 0x8F) && (0x80 ≤ c2 && c2 ≤ 0xBF) &&
          (0x80 ≤ c3 && c3 ≤ 0xBF) && utf8Valid rest3
      | _ => false
    else false

/-- Decimal digit byte. -/
def isDigitByte (b : Nat) : Bool := 48 ≤ b && b ≤ 57

/-- A plausible directory-entry base name, as returned by `Readdirnames`:
non-empty, no separator, and neither "." nor "..". -/
def goodBase (s : Str) : Bool :=
  !s.isEmpty && !s.any isSep && s ≠ [46] && s ≠ [46, 46]

/-! ## The HTTP upload handler `importPackage` -/

/-- Which of the filesystem calls made by `importPackage` fail for this
request (`os.Mkdir` failing with a non-`IsExist` error, `os.Create`,
`io.Copy`). -/
structure UploadErrs where
  mkdirErr : Bool
  createErr : Bool
  copyErr : Bool
deriving DecidableEq

/-- Outcome of one HTTP request handler: an HTTP 500 for this request
only, process termination via `log.Fatal`, or success with the list of
paths pushed onto the index queue. -/
inductive ReqOutcome where
  | httpError
  | fatal
  | ok (enqueued : List Str)
deriving DecidableEq

/-- The `importPackage` handler.  `path` is `r.URL.Path` with the
"/import/" prefix removed.  On each filesystem failure it answers that
request with `http.Error` and returns; on success it enqueues `path`
exactly when the base file name ends in ".dsc". -/
def importPackage (path : Str) (e : UploadErrs) : ReqOutcome :=
  if e.mkdirErr then .httpError
  else if e.createErr then .httpError
  else if e.copyErr then .httpError
  else
    let filename := filepathBase path
    .ok (if hasSuffix filename (strBytes ".dsc") then [path] else [])

/-! ## The merge handler `mergeToShard` -/

/-- Which of the calls made by `mergeToShard` fail: `os.Open` on the
unpacked path, `Readdirnames`, `ioutil.TempFile`, and `os.Create` on the
CPU-profile path. -/
structure MergeErrs where
  openErr : Bool
  readdirErr : Bool
  tempErr : Bool
  profErr : Bool
deriving DecidableEq

/-- Observable filesystem / index-builder effects of a merge. -/
inductive MergeEff where
  | createTemp (path : Str)
  | concatN (dst : Str) (srcs : List Str)
deriving DecidableEq

/-- Outcome of the merge handler: process termination via `log.Fatal`,
or a normal return together with the effects performed. -/
inductive MergeOutcome where
  | fatal
  | done (effs : List MergeEff)
deriving DecidableEq

/-- The ".idx"-suffixed entries of the directory listing, joined to the
directory, exactly as `mergeToShard` collects its `indexFiles`. -/
def mergeIndexFiles (unpackedPath : Str) (names : List Str) : List Str :=
  (names.filter (fun n => hasSuffix n (strBytes ".idx"))).map
    (fun n => filepathJoin unpackedPath n)

/-- The name `ioutil.TempFile dir "newshard"` creates: the prefix
followed by a random decimal suffix `rand`. -/
def newshardName (rand : Str) : Str := strBytes "newshard" ++ rand

/-- The `mergeToShard` handler.  `names` is the `Readdirnames` listing of
the unpacked path, `rand` the random suffix `ioutil.TempFile` picks.
Failures of open / listing / temp-file / profile-file creation hit
`log.Fatal`.  With exactly one ".idx" file it returns before creating
anything; otherwise it creates the temp file and runs one bulk
`index.ConcatN` over all discovered index files. -/
def mergeToShard (unpackedPath : Str) (names : List Str) (rand : Str)
    (e : MergeErrs) (cpuProfile : Str) : MergeOutcome :=
  if e.openErr then .fatal
  else if e.readdirErr then .fatal
  else
    let indexFiles := mergeIndexFiles unpackedPath names
    if indexFiles.length = 1 then .done []
    else if e.tempErr then .fatal
    else
      let tmp := filepathJoin unpackedPath (newshardName rand)
      if cpuProfile.isEmpty = false && e.profErr then .fatal
      else .done [.createTemp tmp, .concatN tmp indexFiles]

/-! ## The tree-walk callback of `unpackAndIndex` -/

/-- The fields of `os.FileInfo` the callback consults. -/
structure FInfo where
  isDir : Bool
  isRegular : Bool
deriving DecidableEq

/-- Control result of one callback invocation: a normal `nil` return, a
`filepath.SkipDir` return, process termination via `log.Fatalf`, or a
nil-pointer panic. -/
inductive Ctl where
  | ret
  | skipDir
  | fatal
  | panicked
deriving DecidableEq

/-- Filesystem / index-builder effects a callback invocation performs. -/
inductive Eff where
  | removeAll (p : Str)
  | removeFile (p : Str)
  | addFile (p : Str) (rel : Str)
  | logSkip (p : Str)
deriving DecidableEq

/-- Result of one callback invocation. -/
structure FnOut where
  ctl : Ctl
  effs : List Eff
deriving DecidableEq

/-- The walk callback passed to `filepath.Walk` inside `unpackAndIndex`.
`info` is `none` when the walk could not stat the entry (it then passes a
nil `os.FileInfo`).  `addOk` and `rmOk` are the outcomes of the
`index.AddFile` and `os.Remove`/`os.RemoveAll` calls the callback would
make on this path.  Note the callback ignores its `err` argument
entirely, and calls `info.IsDir()` before the `info == nil` guard. -/
def walkFnRest (strip : Nat) (path : Str) (info : Option FInfo)
    (addOk rmOk : Bool) : FnOut :=
  match info with
  | none => ⟨.ret, []⟩
  | some i =>
    if !i.isRegular then ⟨.ret, []⟩
    else if !utf8Valid path then ⟨.ret, [.logSkip path]⟩
    else if addOk then ⟨.ret, [.addFile path (path.drop strip)]⟩
    else if rmOk then ⟨.ret, [.removeFile path]⟩
    else ⟨.fatal, []⟩

/-- First half of the callback: the `filename != ""` block with the
ignored-directory and ignored-filename checks, falling through to
`walkFnRest` (the nil-info guard, regularity, UTF-8 and AddFile part). -/
def walkFn (igD igF : List Str) (strip : Nat) (path : Str)
    (info : Option FInfo) (addOk rmOk : Bool) : FnOut :=
  let filename := splitBase path
  if filename.isEmpty then walkFnRest strip path info addOk rmOk
  else
    match info with
    | none => ⟨.panicked, []⟩
    | some i =>
      if i.isDir && igD.contains filename then
        (if rmOk then ⟨.skipDir, [.removeAll path]⟩ else ⟨.fatal, []⟩)
      else if igF.contains filename then
        (if rmOk then ⟨.ret, [.removeFile path]⟩ else ⟨.fatal, []⟩)
      else walkFnRest strip path info addOk rmOk

/-! ## The walk driver

`filepath.Walk` visits a tree depth-first: it calls the callback on each
entry (with a nil info when `lstat` fails), honours `SkipDir` on
directories, and recurses into directory children.  We model the on-disk
tree as `Entry`, with per-entry outcomes of the `lstat`, `AddFile` and
remove calls. -/

mutual
inductive Entry where
  | file (name : Str) (regular : Bool) (statOk : Bool) (addOk : Bool) (rmOk : Bool)
  | dir (name : Str) (statOk : Bool) (rmOk : Bool) (children : EntryList)
inductive EntryList where
  | nil
  | cons (e : Entry) (es : EntryList)
end

/-- Status of the walking process: running, or terminated by
`log.Fatalf`, or terminated by a panic. -/
inductive WStatus where
  | running
  | fatalStop
  | panicStop
deriving DecidableEq

/-- Accumulated observable state of a walk: `AddFile` calls made (path
and stripped relative path), invalid-UTF-8 skips logged, and whether the
process is still alive. -/
structure WSt where
  added : List (Str × Str)
  logged : List Str
  status : WStatus
deriving DecidableEq

/-- The initial walk state. -/
def initWSt : WSt := ⟨[], [], .running⟩

/-- Record a single callback effect in the walk state. -/
def applyEff (st : WSt) : Eff → WSt
  | .addFile p rel => { st with added := st.added ++ [(p, rel)] }
  | .logSkip p => { st with logged := st.logged ++ [p] }
  | .removeAll _ => st
  | .removeFile _ => st

/-- Record a list of callback effects. -/
def applyEffs (st : WSt) (l : List Eff) : WSt := l.foldl applyEff st

/-- Whether the callback removed this path with `os.Remove`. -/
def hasRemoveEff (path : Str) : List Eff → Bool
  | [] => false
  | .removeFile p :: rest => p == path || hasRemoveEff path rest
  | _ :: rest => hasRemoveEff path rest

mutual
/-- Walk one entry living in directory `dir`.  The child path is
`dir ++ "/" ++ name`: `filepath.Walk` builds it with `filepath.Join`,
which for an already-clean parent path and a plain entry name is this
concatenation.  Returns the entry as left on disk (`none` if deleted)
and the updated walk state; once the status is no longer `running` the
process is dead and the remaining tree is left untouched. -/
def walkEntry (igD igF : List Str) (strip : Nat) (dir : Str) (e : Entry)
    (st : WSt) : Option Entry × WSt :=
  if st.status = .running then
    match e with
    | .file name regular statOk addOk rmOk =>
      let path := dir ++ 47 :: name
      let info : Option FInfo := if statOk then some ⟨false, regular⟩ else none
      let out := walkFn igD igF strip path info addOk rmOk
      match out.ctl with
      | .panicked => (some e, { st with status := .panicStop })
      | .fatal => (some e, { st with status := .fatalStop })
      | .skipDir => (some e, applyEffs st out.effs)
      | .ret =>
        (if hasRemoveEff path out.effs then none else some e, applyEffs st out.effs)
    | .dir name statOk rmOk children =>
      let path := dir ++ 47 :: name
      let info : Option FInfo := if statOk then some ⟨true, false⟩ else none
      let out := walkFn igD igF strip path info true rmOk
      match out.ctl with
      | .panicked => (some e, { st with status := .panicStop })
      | .fatal => (some e, { st with status := .fatalStop })
      | .skipDir => (none, applyEffs st out.effs)
      | .ret =>
        if info.isNone then
          -- lstat failed: the walk does not descend into the directory.
          (some e, applyEffs st out.effs)
        else if hasRemoveEff path out.effs then
          -- The callback removed the directory itself (ignored-filename
          -- branch with os.Remove succeeding, which requires it empty).
          -- readDirNames on the now-missing directory fails, Walk calls
          -- the callback again with that error, the ignored-filename
          -- branch runs os.Remove again on the missing path, that remove
          -- fails, and log.Fatalf terminates the process.
          (none, { applyEffs st out.effs with status := .fatalStop })
        else
          let r := walkEntryList igD igF strip path children (applyEffs st out.effs)
          (some (.dir name statOk rmOk r.1), r.2)
  else (some e, st)
termination_by structural e

/-- Walk a list of sibling entries in order. -/
def walkEntryList (igD igF : List Str) (strip : Nat) (dir : Str)
    (es : EntryList) (st : WSt) : EntryList × WSt :=
  match es with
  | .nil => (.nil, st)
  | .cons e rest =>
    let r1 := walkEntry igD igF strip dir e st
    let r2 := walkEntryList igD igF strip dir rest r1.2
    (match r1.1 with
     | none => r2.1
     | some e' => .cons e' r2.1, r2.2)
termination_by structural es
end

mutual
/-- Full paths of the regular files of an entry, rooted at `dir`. -/
def regFiles (dir : Str) : Entry → List Str
  | .file name regular _ _ _ => if regular then [dir ++ 47 :: name] else []
  | .dir name _ _ children => regFilesList (dir ++ 47 :: name) children
/-- Full paths of the regular files of a sibling list. -/
def regFilesList (dir : Str) : EntryList → List Str
  | .nil => []
  | .cons e es => regFiles dir e ++ regFilesList dir es
end

/-- Regular-file paths of an optional (possibly deleted) entry. -/
def regFilesOpt (dir : Str) : Option Entry → List Str
  | none => []
  | some e => regFiles dir e

mutual
/-- Well-formed tree: every entry name is a plausible directory-entry
base name (non-empty, no separators, not "." or ".."). -/
def wfEntry : Entry → Bool
  | .file name _ _ _ _ => goodBase name
  | .dir name _ _ children => goodBase name && wfEntryList children
/-- Well-formedness for sibling lists. -/
def wfEntryList : EntryList → Bool
  | .nil => true
  | .cons e es => wfEntry e && wfEntryList es
end

/-- Paths submitted to `AddFile` so far. -/
def addedPaths (st : WSt) : List Str := st.added.map Prod.fst

/-- Convenience abbreviations for the state transformations the walk
performs. -/
def panicSt (st : WSt) : WSt := { st with status := .panicStop }

def fatalSt (st : WSt) : WSt := { st with status := .fatalStop }

def logSt (st : WSt) (p : Str) : WSt := { st with logged := st.logged ++ [p] }

def addSt (st : WSt) (p rel : Str) : WSt := { st with added := st.added ++ [(p, rel)] }

/-! ## The worker loop `unpackAndIndex` -/

/-- One dequeued job: the `.dsc` path read from the index queue, whether
the `dpkg-source` invocation succeeds, and the unpacked tree it produces
(the root entry; its name is the package directory `dpkg-source`
extracts into). -/
structure Job where
  dscPath : Str
  unpackOk : Bool
  tree : Entry

/-- Observable index-builder effects of the worker loop. -/
inductive WorkerEff where
  | createIndex (path : Str)
  | flushIndex (path : Str)
deriving DecidableEq

/-- Process one job as `unpackAndIndex` does: on `dpkg-source` failure
log and continue with no effects; otherwise create the shard at
`filepath.Join(tmpdir, pkg + ".idx")`, walk the unpacked tree rooted at
`filepath.Join(tmpdir, pkg, pkg)` with `stripLen` set to the length of
`filepath.Join(tmpdir, pkg)`, and flush.  The boolean is false when the
walk killed the process (a failed deletion or a nil-info panic). -/
def processJobEffs (igD igF : List Str) (tmpdir : Str) (j : Job) :
    List WorkerEff × Bool :=
  if !j.unpackOk then ([], true)
  else
    let pkg := filepathDir j.dscPath
    let shard := filepathJoin tmpdir (pkg ++ strBytes ".idx")
    let pkgDir := filepathJoin tmpdir pkg
    let strip := pkgDir.length
    let r := walkEntry igD igF strip pkgDir j.tree initWSt
    if r.2.status = .running then ([.createIndex shard, .flushIndex shard], true)
    else ([.createIndex shard], false)

/-- The worker loop over a queue of jobs: each job is processed fully;
processing stops only if the walk terminated the process. -/
def runJobs (igD igF : List Str) (tmpdir : Str) : List Job → List WorkerEff
  | [] => []
  | j :: rest =>
    let r := processJobEffs igD igF tmpdir j
    if r.2 then r.1 ++ runJobs igD igF tmpdir rest else r.1

/-! ## Startup configuration (`main`) -/

/-- The three filtering sets as loaded by `main`. -/
structure Config where
  ignoredDirnames : List Str
  ignoredFilenames : List Str
  ignoredSuffixes : List Str

/-- Helper for `parseList`: accumulate bytes of the current entry. -/
def splitCommaAux : Str → Str → List Str
  | [], cur => [cur.reverse]
  | b :: rest, cur =>
    if b == 44 then cur.reverse :: splitCommaAux rest []
    else splitCommaAux rest (b :: cur)

/-- Go `strings.Split s ","` applied to a flag value (how `main` fills
the three ignored sets). -/
def parseList (s : String) : List Str := splitCommaAux (strBytes s) []

/-- The configuration `main` builds from the default flag values. -/
def mainConfig : Config :=
  { ignoredDirnames := parseList ".pc,po,.git"
    ignoredFilenames := parseList
      "NEWS,COPYING,LICENSE,CHANGES,Makefile.in,ltmain.sh,config.guess,config.sub,depcomp,aclocal.m4,libtool.m4,.gitignore"
    ignoredSuffixes := parseList
      "conf,dic,cfg,man,xml,xsl,html,sgml,pod,po,txt,tex,rtf,docbook,symbols" }

/-- The walk of one entry, taking the full configuration (of which the
callback consults only the ignored-dirname and ignored-filename sets). -/
def walkEntryC (cfg : Config) : Nat → Str → Entry → WSt → Option Entry × WSt :=
  walkEntry cfg.ignoredDirnames cfg.ignoredFilenames

/-! ## Helper lemmas about paths and the walk state -/

theorem takeWhile_append_stop (p : Nat → Bool) (l : List Nat) (x : Nat) (r : List Nat)
    (hl : ∀ b ∈ l, p b = true) (hx : p x = false) :
    (l ++ x :: r).takeWhile p = l := by
  induction l with
  | nil => simp [List.takeWhile_cons, hx]
  | cons a t ih =>
    have ha := hl a (by simp)
    simp only [List.cons_append, List.takeWhile_cons, ha, if_true]
    rw [ih (fun b hb => hl b (by simp [hb]))]

theorem splitBase_append (dir name : Str) (h : name.any isSep = false) :
    splitBase (dir ++ 47 :: name) = name := by
  unfold splitBase
  have hsep : ∀ b ∈ name.reverse, (fun b => !isSep b) b = true := by
    intro b hb
    have hb' : b ∈ name := List.mem_reverse.mp hb
    have hf : ¬ isSep b = true := List.any_eq_false.mp h b hb'
    simp [Bool.not_eq_true] at hf
    simp [hf]
  have h47 : (fun b => !isSep b) 47 = false := by simp [isSep]
  have : (dir ++ 47 :: name).reverse = name.reverse ++ 47 :: dir.reverse := by
    simp [List.reverse_append]
  rw [this, takeWhile_append_stop _ _ _ _ hsep h47, List.reverse_reverse]

theorem goodBase_noSep {name : Str} (h : goodBase name = true) : name.any isSep = false := by
  simp [goodBase] at h
  rw [List.any_eq_false]
  intro x hx
  simp [h.1.1.2 x hx]

theorem goodBase_ne_nil {name : Str} (h : goodBase name = true) : name.isEmpty = false := by
  simp [goodBase] at h
  cases hn : name with
  | nil => exact absurd hn h.1.1.1
  | cons a t => rfl

theorem applyEffs_added (st : WSt) (l : List Eff) :
    ∃ d, (applyEffs st l).added = st.added ++ d := by
  induction l generalizing st with
  | nil => exact ⟨[], by simp [applyEffs]⟩
  | cons eff rest ih =>
    obtain ⟨d2, h2⟩ := ih (applyEff st eff)
    have h1 : ∃ d1, (applyEff st eff).added = st.added ++ d1 := by
      cases eff with
      | addFile p rel => exact ⟨[(p, rel)], rfl⟩
      | logSkip p => exact ⟨[], by simp [applyEff]⟩
      | removeAll p => exact ⟨[], by simp [applyEff]⟩
      | removeFile p => exact ⟨[], by simp [applyEff]⟩
    obtain ⟨d1, h1⟩ := h1
    refine ⟨d1 ++ d2, ?_⟩
    have : applyEffs st (eff :: rest) = applyEffs (applyEff st eff) rest := rfl
    rw [this, h2, h1, List.append_assoc]

theorem applyEffs_status (st : WSt) (l : List Eff) :
    (applyEffs st l).status = st.status := by
  induction l generalizing st with
  | nil => rfl
  | cons eff rest ih =>
    have : applyEffs st (eff :: rest) = applyEffs (applyEff st eff) rest := rfl
    rw [this, ih]
    cases eff <;> rfl

theorem applyEffs_logged (st : WSt) (l : List Eff) :
    ∃ d, (applyEffs st l).logged = st.logged ++ d := by
  induction l generalizing st with
  | nil => exact ⟨[], by simp [applyEffs]⟩
  | cons eff rest ih =>
    obtain ⟨d2, h2⟩ := ih (applyEff st eff)
    have h1 : ∃ d1, (applyEff st eff).logged = st.logged ++ d1 := by
      cases eff with
      | addFile p rel => exact ⟨[], by simp [applyEff]⟩
      | logSkip p => exact ⟨[p], rfl⟩
      | removeAll p => exact ⟨[], by simp [applyEff]⟩
      | removeFile p => exact ⟨[], by simp [applyEff]⟩
    obtain ⟨d1, h1⟩ := h1
    refine ⟨d1 ++ d2, ?_⟩
    have : applyEffs st (eff :: rest) = applyEffs (applyEff st eff) rest := rfl
    rw [this, h2, h1, List.append_assoc]

theorem walkEntry_stuck (igD igF : List Str) (strip : Nat) (dir : Str) (e : Entry)
    (st : WSt) (h : ¬ st.status = .running) :
    walkEntry igD igF strip dir e st = (some e, st) := by
  unfold walkEntry
  rw [if_neg h]

theorem walkEntryList_stuck (igD igF : List Str) (strip : Nat) (dir : Str)
    (es : EntryList) (st : WSt) (h : ¬ st.status = .running) :
    walkEntryList igD igF strip dir es st = (es, st) := by
  match es with
  | .nil => rfl
  | .cons e rest =>
    unfold walkEntryList
    simp only [walkEntry_stuck igD igF strip dir e st h,
      walkEntryList_stuck igD igF strip dir rest st h]

theorem walkEntry_run_of_run (igD igF : List Str) (strip : Nat) (dir : Str)
    (e : Entry) (st : WSt)
    (h : (walkEntry igD igF strip dir e st).2.status = .running) :
    st.status = .running := by
  by_cases hst : st.status = .running
  · exact hst
  · rw [walkEntry_stuck igD igF strip dir e st hst] at h
    exact absurd h hst

theorem walkEntryList_run_of_run (igD igF : List Str) (strip : Nat) (dir : Str)
    (es : EntryList) (st : WSt)
    (h : (walkEntryList igD igF strip dir es st).2.status = .running) :
    st.status = .running := by
  by_cases hst : st.status = .running
  · exact hst
  · rw [walkEntryList_stuck igD igF strip dir es st hst] at h
    exact absurd h hst

/-- Full description of the walk over a single file entry with a
well-formed name. -/
theorem walkEntry_file_char (igD igF : List Str) (strip : Nat) (dir name : Str)
    (regular statOk addOk rmOk : Bool) (st : WSt)
    (hst : st.status = .running) (hname : goodBase name = true) :
    walkEntry igD igF strip dir (.file name regular statOk addOk rmOk) st =
      (let e := Entry.file name regular statOk addOk rmOk
       let path := dir ++ 47 :: name
       if statOk = false then (some e, panicSt st)
       else if igF.contains name then
         (if rmOk then (none, st) else (some e, fatalSt st))
       else if regular = false then (some e, st)
       else if utf8Valid path = false then (some e, logSt st path)
       else if addOk then (some e, addSt st path (path.drop strip))
       else if rmOk then (none, st)
       else (some e, fatalSt st)) := by
  have hsb : splitBase (dir ++ 47 :: name) = name :=
    splitBase_append dir name (goodBase_noSep hname)
  have hne : name.isEmpty = false := goodBase_ne_nil hname
  unfold walkEntry
  rw [if_pos hst]
  cases statOk with
  | false =>
    simp [walkFn, hsb, hne, panicSt]
  | true =>
    by_cases hF : name ∈ igF
    · cases rmOk with
      | true =>
        simp [walkFn, walkFnRest, hsb, hne, hF, hasRemoveEff, applyEffs, applyEff]
      | false =>
        simp [walkFn, walkFnRest, hsb, hne, hF, fatalSt]
    · have hF' : name ∈ igF ↔ False := by simp [hF]
      cases regular with
      | false =>
        simp [walkFn, walkFnRest, hsb, hne, hF', applyEffs, hasRemoveEff]
      | true =>
        by_cases hu : utf8Valid (dir ++ 47 :: name) = true
        · cases addOk with
          | true =>
            simp [walkFn, walkFnRest, hsb, hne, hF', hu, hasRemoveEff, applyEffs, applyEff, addSt]
          | false =>
            cases rmOk with
            | true =>
              simp [walkFn, walkFnRest, hsb, hne, hF', hu, hasRemoveEff, applyEffs, applyEff]
            | false =>
              simp [walkFn, walkFnRest, hsb, hne, hF', hu, fatalSt, hasRemoveEff]
        · have hu' : utf8Valid (dir ++ 47 :: name) = false := by simpa using hu
          simp [walkFn, walkFnRest, hsb, hne, hF', hu', hasRemoveEff, applyEffs, applyEff, logSt]

/-- Full description of the walk over a directory entry with a
well-formed name. -/
theorem walkEntry_dir_char (igD igF : List Str) (strip : Nat) (dir name : Str)
    (statOk rmOk : Bool) (children : EntryList) (st : WSt)
    (hst : st.status = .running) (hname : goodBase name = true) :
    walkEntry igD igF strip dir (.dir name statOk rmOk children) st =
      (let e := Entry.dir name statOk rmOk children
       let path := dir ++ 47 :: name
       if statOk = false then (some e, panicSt st)
       else if name ∈ igD then
         (if rmOk then (none, st) else (some e, fatalSt st))
       else if name ∈ igF then
         (if rmOk then (none, fatalSt st) else (some e, fatalSt st))
       else
         let r := walkEntryList igD igF strip path children st
         (some (.dir name statOk rmOk r.1), r.2)) := by
  have hsb : splitBase (dir ++ 47 :: name) = name :=
    splitBase_append dir name (goodBase_noSep hname)
  have hne : name.isEmpty = false := goodBase_ne_nil hname
  unfold walkEntry
  rw [if_pos hst]
  cases statOk with
  | false =>
    simp [walkFn, hsb, hne, panicSt]
  | true =>
    by_cases hD : name ∈ igD
    · cases rmOk with
      | true =>
        simp [walkFn, hsb, hne, hD, applyEffs, applyEff]
      | false =>
        simp [walkFn, hsb, hne, hD, fatalSt]
    · by_cases hF : name ∈ igF
      · cases rmOk with
        | true =>
          simp [walkFn, walkFnRest, hsb, hne, hD, hF, hasRemoveEff, applyEffs, applyEff, fatalSt]
        | false =>
          simp [walkFn, walkFnRest, hsb, hne, hD, hF, fatalSt]
      · simp [walkFn, walkFnRest, hsb, hne, hD, hF, hasRemoveEff, applyEffs]

mutual
/-- The walk only appends to the list of `AddFile` calls. -/
theorem walkEntry_added_prefix (igD igF : List Str) (strip : Nat) (dir : Str)
    (e : Entry) (st : WSt) :
    ∃ d, (walkEntry igD igF strip dir e st).2.added = st.added ++ d := by
  by_cases hst : st.status = .running
  · cases e with
    | file name regular statOk addOk rmOk =>
      unfold walkEntry
      rw [if_pos hst]
      dsimp only
      generalize walkFn igD igF strip (dir ++ 47 :: name)
          (if statOk = true then some { isDir := false, isRegular := regular } else none)
          addOk rmOk = out
      obtain ⟨ctl, effs⟩ := out
      cases ctl with
      | ret => exact applyEffs_added st effs
      | skipDir => exact applyEffs_added st effs
      | fatal => exact ⟨[], by simp⟩
      | panicked => exact ⟨[], by simp⟩
    | dir name statOk rmOk children =>
      unfold walkEntry
      rw [if_pos hst]
      dsimp only
      cases hso : statOk with
      | false =>
        simp only [Bool.false_eq_true, if_false]
        generalize walkFn igD igF strip (dir ++ 47 :: name) none true rmOk = out
        obtain ⟨ctl, effs⟩ := out
        cases ctl with
        | ret => simp only [Option.isNone_none, if_true]; exact applyEffs_added st effs
        | skipDir => exact applyEffs_added st effs
        | fatal => exact ⟨[], by simp⟩
        | panicked => exact ⟨[], by simp⟩
      | true =>
        simp only [if_true]
        generalize walkFn igD igF strip (dir ++ 47 :: name)
            (some { isDir := true, isRegular := false }) true rmOk = out
        obtain ⟨ctl, effs⟩ := out
        cases ctl with
        | skipDir => exact applyEffs_added st effs
        | fatal => exact ⟨[], by simp⟩
        | panicked => exact ⟨[], by simp⟩
        | ret =>
          simp only [Option.isNone_some, Bool.false_eq_true, if_false]
          by_cases hre : hasRemoveEff (dir ++ 47 :: name) effs = true
          · obtain ⟨d1, h1⟩ := applyEffs_added st effs
            exact ⟨d1, by simp [hre, h1]⟩
          · obtain ⟨d1, h1⟩ := applyEffs_added st effs
            obtain ⟨d2, h2⟩ := walkEntryList_added_prefix igD igF strip
              (dir ++ 47 :: name) children (applyEffs st effs)
            refine ⟨d1 ++ d2, ?_⟩
            simp only [Bool.not_eq_true] at hre
            simp [hre, h2, h1, List.append_assoc]
  · rw [walkEntry_stuck igD igF strip dir e st hst]
    exact ⟨[], by simp⟩

/-- List version of `walkEntry_added_prefix`. -/
theorem walkEntryList_added_prefix (igD igF : List Str) (strip : Nat) (dir : Str)
    (es : EntryList) (st : WSt) :
    ∃ d, (walkEntryList igD igF strip dir es st).2.added = st.added ++ d := by
  cases es with
  | nil => exact ⟨[], by simp [walkEntryList]⟩
  | cons e rest =>
    unfold walkEntryList
    dsimp only
    obtain ⟨d1, h1⟩ := walkEntry_added_prefix igD igF strip dir e st
    obtain ⟨d2, h2⟩ := walkEntryList_added_prefix igD igF strip dir rest
      (walkEntry igD igF strip dir e st).2
    exact ⟨d1 ++ d2, by rw [h2, h1, List.append_assoc]⟩
end

/-- Membership in the submitted paths is preserved as the state grows. -/
theorem addedPaths_mono {st0 st1 : WSt} {d : List (Str × Str)}
    (h : st1.added = st0.added ++ d) {p : Str} (hp : p ∈ addedPaths st0) :
    p ∈ addedPaths st1 := by
  unfold addedPaths at hp ⊢
  rw [h, List.map_append]
  exact List.mem_append_left _ hp

mutual
/-- After a walk that leaves the process running, every regular file
still on disk was submitted to `AddFile` or has an invalid-UTF-8 path. -/
theorem walkEntry_inv (igD igF : List Str) (strip : Nat) (dir : Str)
    (e : Entry) (st : WSt) (hwf : wfEntry e = true)
    (hrun : (walkEntry igD igF strip dir e st).2.status = .running) :
    ∀ p ∈ regFilesOpt dir (walkEntry igD igF strip dir e st).1,
      p ∈ addedPaths (walkEntry igD igF strip dir e st).2 ∨ utf8Valid p = false := by
  have hst : st.status = .running := walkEntry_run_of_run igD igF strip dir e st hrun
  cases e with
  | file name regular statOk addOk rmOk =>
    have hname : goodBase name = true := by simpa [wfEntry] using hwf
    rw [walkEntry_file_char igD igF strip dir name regular statOk addOk rmOk st hst hname]
      at hrun ⊢
    cases statOk with
    | false => simp [panicSt] at hrun
    | true =>
      by_cases hF : name ∈ igF
      · cases rmOk with
        | true => intro p hp; simp [hF, regFilesOpt] at hp
        | false => simp [hF, fatalSt] at hrun
      · have hF' : ¬ name ∈ igF := hF
        cases regular with
        | false => intro p hp; simp [hF', regFilesOpt, regFiles] at hp
        | true =>
          by_cases hu : utf8Valid (dir ++ 47 :: name) = true
          · cases addOk with
            | true =>
              intro p hp
              simp [hF', hu, regFilesOpt, regFiles] at hp
              subst hp
              left
              simp [hF', hu, addSt, addedPaths]
            | false =>
              cases rmOk with
              | true => intro p hp; simp [hF', hu, regFilesOpt] at hp
              | false => simp [hF', hu, fatalSt] at hrun
          · have hu' : utf8Valid (dir ++ 47 :: name) = false := by simpa using hu
            intro p hp
            simp [hF', hu', regFilesOpt, regFiles] at hp
            subst hp
            right
            exact hu'
  | dir name statOk rmOk children =>
    have hname : goodBase name = true := by
      have := hwf
      simp [wfEntry] at this
      exact this.1
    have hwfc : wfEntryList children = true := by
      have := hwf
      simp [wfEntry] at this
      exact this.2
    rw [walkEntry_dir_char igD igF strip dir name statOk rmOk children st hst hname]
      at hrun ⊢
    cases statOk with
    | false => simp [panicSt] at hrun
    | true =>
      by_cases hD : name ∈ igD
      · cases rmOk with
        | true => intro p hp; simp [hD, regFilesOpt] at hp
        | false => simp [hD, fatalSt] at hrun
      · by_cases hF : name ∈ igF
        · cases rmOk with
          | true => simp [hD, hF, fatalSt] at hrun
          | false => simp [hD, hF, fatalSt] at hrun
        · simp only [hD, hF, if_false, if_true, Bool.true_eq_false, if_neg, reduceIte] at hrun ⊢
          intro p hp
          simp only [regFilesOpt, regFiles] at hp
          exact walkEntryList_inv igD igF strip (dir ++ 47 :: name) children st hwfc hrun p hp

/-- List version of `walkEntry_inv`. -/
theorem walkEntryList_inv (igD igF : List Str) (strip : Nat) (dir : Str)
    (es : EntryList) (st : WSt) (hwf : wfEntryList es = true)
    (hrun : (walkEntryList igD igF strip dir es st).2.status = .running) :
    ∀ p ∈ regFilesList dir (walkEntryList igD igF strip dir es st).1,
      p ∈ addedPaths (walkEntryList igD igF strip dir es st).2 ∨ utf8Valid p = false := by
  cases es with
  | nil => intro p hp; simp [walkEntryList, regFilesList] at hp
  | cons e rest =>
    have hwfe : wfEntry e = true := by
      have := hwf; simp [wfEntryList] at this; exact this.1
    have hwfr : wfEntryList rest = true := by
      have := hwf; simp [wfEntryList] at this; exact this.2
    unfold walkEntryList at hrun ⊢
    dsimp only at hrun ⊢
    have hrun2 := hrun
    have hrun1 : (walkEntry igD igF strip dir e st).2.status = .running :=
      walkEntryList_run_of_run igD igF strip dir rest
        (walkEntry igD igF strip dir e st).2 hrun2
    obtain ⟨d2, hd2⟩ := walkEntryList_added_prefix igD igF strip dir rest
      (walkEntry igD igF strip dir e st).2
    intro p hp
    cases hr1 : (walkEntry igD igF strip dir e st).1 with
    | none =>
      rw [hr1] at hp
      exact walkEntryList_inv igD igF strip dir rest
        (walkEntry igD igF strip dir e st).2 hwfr hrun2 p hp
    | some e' =>
      rw [hr1] at hp
      simp only [regFilesList] at hp
      rcases List.mem_append.mp hp with hp1 | hp2
      · have := walkEntry_inv igD igF strip dir e st hwfe hrun1 p
          (by rw [hr1]; simpa [regFilesOpt] using hp1)
        rcases this with hin | hinv
        · exact Or.inl (addedPaths_mono hd2 hin)
        · exact Or.inr hinv
      · exact walkEntryList_inv igD igF strip dir rest
          (walkEntry igD igF strip dir e st).2 hwfr hrun2 p hp2
end

/-- Anything in the state after applying effects was already there or
appears as an `addFile` effect. -/
theorem mem_applyEffs_added (st : WSt) (effs : List Eff) (p rel : Str)
    (h : (p, rel) ∈ (applyEffs st effs).added) :
    (p, rel) ∈ st.added ∨ Eff.addFile p rel ∈ effs := by
  induction effs generalizing st with
  | nil => exact Or.inl h
  | cons eff rest ih =>
    have hstep : applyEffs st (eff :: rest) = applyEffs (applyEff st eff) rest := rfl
    rw [hstep] at h
    rcases ih (applyEff st eff) h with h1 | h2
    · cases eff with
      | addFile q qrel =>
        rcases List.mem_append.mp h1 with ha | hb
        · exact Or.inl ha
        · simp at hb
          exact Or.inr (by simp [hb])
      | logSkip q => exact Or.inl h1
      | removeAll q => exact Or.inl h1
      | removeFile q => exact Or.inl h1
    · exact Or.inr (List.mem_cons_of_mem _ h2)

/-- The callback submits a path to `AddFile` only after the UTF-8 check
passed (second half of the callback). -/
theorem walkFnRest_addFile_valid (strip : Nat) (path : Str) (info : Option FInfo)
    (addOk rmOk : Bool) (p rel : Str)
    (h : Eff.addFile p rel ∈ (walkFnRest strip path info addOk rmOk).effs) :
    utf8Valid p = true := by
  unfold walkFnRest at h
  cases info with
  | none => simp at h
  | some i =>
    by_cases hr : i.isRegular = true
    · by_cases hu : utf8Valid path = true
      · by_cases ha : addOk = true
        · simp [hr, hu, ha] at h
          rw [h.1]
          exact hu
        · cases hrm : rmOk <;> simp [hr, hu, ha, hrm] at h
      · simp [hr, hu] at h
    · simp [hr] at h

/-- The callback submits a path to `AddFile` only after the UTF-8 check
passed. -/
theorem walkFn_addFile_valid (igD igF : List Str) (strip : Nat) (path : Str)
    (info : Option FInfo) (addOk rmOk : Bool) (p rel : Str)
    (h : Eff.addFile p rel ∈ (walkFn igD igF strip path info addOk rmOk).effs) :
    utf8Valid p = true := by
  unfold walkFn at h
  by_cases he : (splitBase path).isEmpty = true
  · rw [if_pos he] at h
    exact walkFnRest_addFile_valid strip path info addOk rmOk p rel h
  · rw [if_neg he] at h
    cases info with
    | none => simp at h
    | some i =>
      dsimp only at h
      by_cases hD : (i.isDir && igD.contains (splitBase path)) = true
      · rw [if_pos hD] at h
        cases hrm : rmOk <;> simp [hrm] at h
      · rw [if_neg hD] at h
        by_cases hF : igF.contains (splitBase path) = true
        · rw [if_pos hF] at h
          cases hrm : rmOk <;> simp [hrm] at h
        · rw [if_neg hF] at h
          exact walkFnRest_addFile_valid strip path (some i) addOk rmOk p rel h

mutual
/-- Every pair the walk adds on top of the incoming state passed the
UTF-8 check. -/
theorem walkEntry_added_valid (igD igF : List Str) (strip : Nat) (dir : Str)
    (e : Entry) (st : WSt) (p rel : Str)
    (h : (p, rel) ∈ (walkEntry igD igF strip dir e st).2.added) :
    (p, rel) ∈ st.added ∨ utf8Valid p = true := by
  by_cases hst : st.status = .running
  · cases e with
    | file name regular statOk addOk rmOk =>
      unfold walkEntry at h
      rw [if_pos hst] at h
      dsimp only at h
      generalize hout : walkFn igD igF strip (dir ++ 47 :: name)
          (if statOk = true then some { isDir := false, isRegular := regular } else none)
          addOk rmOk = out at h
      obtain ⟨ctl, effs⟩ := out
      cases ctl with
      | ret =>
        rcases mem_applyEffs_added st effs p rel h with h1 | h2
        · exact Or.inl h1
        · exact Or.inr (walkFn_addFile_valid _ _ _ _ _ _ _ _ _ (by rw [hout]; exact h2))
      | skipDir =>
        rcases mem_applyEffs_added st effs p rel h with h1 | h2
        · exact Or.inl h1
        · exact Or.inr (walkFn_addFile_valid _ _ _ _ _ _ _ _ _ (by rw [hout]; exact h2))
      | fatal => exact Or.inl h
      | panicked => exact Or.inl h
    | dir name statOk rmOk children =>
      unfold walkEntry at h
      rw [if_pos hst] at h
      dsimp only at h
      cases hso : statOk with
      | false =>
        rw [hso] at h
        simp only [Bool.false_eq_true, if_false] at h
        generalize hout : walkFn igD igF strip (dir ++ 47 :: name) none true rmOk = out at h
        obtain ⟨ctl, effs⟩ := out
        cases ctl with
        | ret =>
          simp only [Option.isNone_none, if_true] at h
          rcases mem_applyEffs_added st effs p rel h with h1 | h2
          · exact Or.inl h1
          · exact Or.inr (walkFn_addFile_valid _ _ _ _ _ _ _ _ _ (by rw [hout]; exact h2))
        | skipDir =>
          rcases mem_applyEffs_added st effs p rel h with h1 | h2
          · exact Or.inl h1
          · exact Or.inr (walkFn_addFile_valid _ _ _ _ _ _ _ _ _ (by rw [hout]; exact h2))
        | fatal => exact Or.inl h
        | panicked => exact Or.inl h
      | true =>
        rw [hso] at h
        simp only [if_true] at h
        generalize hout : walkFn igD igF strip (dir ++ 47 :: name)
            (some { isDir := true, isRegular := false }) true rmOk = out at h
        obtain ⟨ctl, effs⟩ := out
        cases ctl with
        | skipDir =>
          rcases mem_applyEffs_added st effs p rel h with h1 | h2
          · exact Or.inl h1
          · exact Or.inr (walkFn_addFile_valid _ _ _ _ _ _ _ _ _ (by rw [hout]; exact h2))
        | fatal => exact Or.inl h
        | panicked => exact Or.inl h
        | ret =>
          simp only [Option.isNone_some, Bool.false_eq_true, if_false] at h
          by_cases hre : hasRemoveEff (dir ++ 47 :: name) effs = true
          · rw [if_pos hre] at h
            rcases mem_applyEffs_added st effs p rel h with h1 | h2
            · exact Or.inl h1
            · exact Or.inr (walkFn_addFile_valid _ _ _ _ _ _ _ _ _ (by rw [hout]; exact h2))
          · rw [if_neg hre] at h
            rcases walkEntryList_added_valid igD igF strip (dir ++ 47 :: name) children
              (applyEffs st effs) p rel h with h1 | h2
            · rcases mem_applyEffs_added st effs p rel h1 with h3 | h4
              · exact Or.inl h3
              · exact Or.inr (walkFn_addFile_valid _ _ _ _ _ _ _ _ _ (by rw [hout]; exact h4))
            · exact Or.inr h2
  · rw [walkEntry_stuck igD igF strip dir e st hst] at h
    exact Or.inl h

/-- List version of `walkEntry_added_valid`. -/
theorem walkEntryList_added_valid (igD igF : List Str) (strip : Nat) (dir : Str)
    (es : EntryList) (st : WSt) (p rel : Str)
    (h : (p, rel) ∈ (walkEntryList igD igF strip dir es st).2.added) :
    (p, rel) ∈ st.added ∨ utf8Valid p = true := by
  cases es with
  | nil => exact Or.inl h
  | cons e rest =>
    unfold walkEntryList at h
    dsimp only at h
    rcases walkEntryList_added_valid igD igF strip dir rest
      (walkEntry igD igF strip dir e st).2 p rel h with h1 | h2
    · exact walkEntry_added_valid igD igF strip dir e st p rel h1
    · exact Or.inr h2
end

/-! ## Lemmas about path joining and shard names -/

/-- A separator-free byte string forms a single segment. -/
theorem splitSegsAux_noSep (b : Str) (cur : Str) (hb : b.any isSep = false) :
    splitSegsAux b cur = [cur.reverse ++ b] := by
  induction b generalizing cur with
  | nil => simp [splitSegsAux]
  | cons x xs ih =>
    have hx : isSep x = false := by
      have := List.any_eq_false.mp hb x (by simp)
      simpa using this
    have hxs : xs.any isSep = false := by
      rw [List.any_eq_false]
      intro y hy
      exact List.any_eq_false.mp hb y (by simp [hy])
    simp [splitSegsAux, hx, ih (x :: cur) hxs]

/-- Splitting `u ++ "/" ++ b` for separator-free `b` appends one
segment to the segments of `u`. -/
theorem splitSegs_append_seg (u b : Str) (hb : b.any isSep = false) :
    splitSegs (u ++ 47 :: b) = splitSegs u ++ [b] := by
  unfold splitSegs
  suffices h : ∀ cur, splitSegsAux (u ++ 47 :: b) cur = splitSegsAux u cur ++ [b] by
    exact h []
  induction u with
  | nil =>
    intro cur
    simp [splitSegsAux, isSep, splitSegsAux_noSep b [] hb]
  | cons x xs ih =>
    intro cur
    by_cases hx : isSep x = true
    · simp [splitSegsAux, hx, ih]
    · simp only [Bool.not_eq_true] at hx
      simp [splitSegsAux, hx, ih]

/-- `cleanStep` keeps a good base name as a fresh output segment. -/
theorem cleanStep_goodBase (r : Bool) (acc : List Str) (b : Str)
    (hb : goodBase b = true) : cleanStep r acc b = b :: acc := by
  simp [goodBase] at hb
  unfold cleanStep
  have h1 : b.isEmpty = false := by
    cases hn : b with
    | nil => exact absurd hn hb.1.1.1
    | cons a t => rfl
  have h2 : (b == [46]) = false := by
    simp [hb.1.2]
  have h3 : (b == [46, 46]) = false := by
    simp [hb.2]
  simp [h1, h2, h3]

/-- The intercalation of segments ending in `b` ends in `b`. -/
theorem exists_intercalate_concat (sep : Str) (xs : List Str) (b : Str) :
    ∃ q, List.intercalate sep (xs ++ [b]) = q ++ b := by
  induction xs with
  | nil => exact ⟨[], by simp [List.intercalate]⟩
  | cons x xs ih =>
    obtain ⟨q, hq⟩ := ih
    cases xs with
    | nil =>
      refine ⟨x ++ sep, ?_⟩
      simp [List.intercalate, List.intersperse]
    | cons y ys =>
      refine ⟨x ++ sep ++ q, ?_⟩
      have hstep : List.intercalate sep (x :: y :: (ys ++ [b]))
          = x ++ sep ++ List.intercalate sep (y :: (ys ++ [b])) := by
        simp [List.intercalate, List.intersperse]
      have hq' : List.intercalate sep (y :: (ys ++ [b])) = q ++ b := by
        simpa using hq
      calc List.intercalate sep ((x :: y :: ys) ++ [b])
          = List.intercalate sep (x :: y :: (ys ++ [b])) := by simp
        _ = x ++ sep ++ (q ++ b) := by rw [hstep, hq']
        _ = (x ++ sep ++ q) ++ b := by simp [List.append_assoc]

/-- Joining a good base name onto a non-empty directory yields a path
ending in that base name. -/
theorem filepathJoin_goodBase (u b : Str) (hu : u.isEmpty = false)
    (hb : goodBase b = true) : ∃ pre, filepathJoin u b = pre ++ b := by
  have hune : ¬ u.isEmpty = true := by simp [hu]
  have hbne : b.isEmpty = false := goodBase_ne_nil hb
  have hbne' : ¬ b.isEmpty = true := by simp [hbne]
  have hbnil : b ≠ [] := by
    cases b with
    | nil => simp at hbne
    | cons a t => simp
  unfold filepathJoin
  rw [if_neg (by simp [hu, hbne]), if_neg hune, if_neg hbne']
  unfold filepathClean
  dsimp only
  rw [splitSegs_append_seg u b (goodBase_noSep hb), List.foldl_append,
    List.foldl_cons, List.foldl_nil]
  generalize (match u ++ 47 :: b with | c :: _ => isSep c | [] => false) = rooted
  generalize List.foldl (cleanStep rooted) [] (splitSegs u) = acc
  rw [cleanStep_goodBase rooted acc b hb]
  rw [List.reverse_cons]
  obtain ⟨q, hq⟩ := exists_intercalate_concat [47] acc.reverse b
  rw [hq]
  have hbody : (q ++ b).isEmpty = false := by
    cases b with
    | nil => simp at hbne
    | cons a t => simp
  cases rooted with
  | true => exact ⟨47 :: q, by simp⟩
  | false => exact ⟨q, by simp [hbody]⟩

/-- A byte string sharing a non-empty suffix shares its last byte. -/
theorem hasSuffix_getLast {s suf : Str} (h : hasSuffix s suf = true)
    (hne : suf ≠ []) : s.getLast? = suf.getLast? := by
  unfold hasSuffix at h
  obtain ⟨t, ht⟩ := List.isSuffixOf_iff_suffix.mp h
  rw [← ht]
  exact List.getLast?_append_of_ne_nil t hne

/-- A suffix of the tail is a suffix of the whole. -/
theorem hasSuffix_append_left (pre s suf : Str) (h : hasSuffix s suf = true) :
    hasSuffix (pre ++ s) suf = true := by
  unfold hasSuffix at h ⊢
  rw [List.isSuffixOf_iff_suffix] at h ⊢
  exact h.trans (List.suffix_append pre s)

/-- A temp-file name `newshard<digits>` is a good base name. -/
theorem goodBase_newshard (rand : Str) (h : rand.all isDigitByte = true) :
    goodBase (newshardName rand) = true := by
  unfold goodBase newshardName
  have h1 : (strBytes "newshard" ++ rand).isEmpty = false := by
    simp [strBytes]
  have h2 : (strBytes "newshard" ++ rand).any isSep = false := by
    rw [List.any_eq_false]
    intro x hx
    rcases List.mem_append.mp hx with hx1 | hx2
    · have hns : (strBytes "newshard").any isSep = false := by decide
      have := List.any_eq_false.mp hns x hx1
      simpa using this
    · have hd : isDigitByte x = true := List.all_eq_true.mp h x hx2
      simp [isDigitByte] at hd
      simp [isSep]
      omega
  have h3 : ¬ strBytes "newshard" ++ rand = [46] := by
    intro hc
    have := congrArg List.length hc
    simp [strBytes] at this
  have h4 : ¬ strBytes "newshard" ++ rand = [46, 46] := by
    intro hc
    have := congrArg List.length hc
    simp [strBytes] at this
  simp [h1, h2, h3, h4]

/-- A temp-file name `newshard<digits>` never carries the ".idx"
suffix. -/
theorem newshardName_not_idx (rand : Str) (h : rand.all isDigitByte = true) :
    hasSuffix (newshardName rand) (strBytes ".idx") = false := by
  by_contra hc
  rw [Bool.not_eq_false] at hc
  have hlast := hasSuffix_getLast hc (by decide)
  have hidx : (strBytes ".idx").getLast? = some 120 := by decide
  rw [hidx] at hlast
  rcases List.eq_nil_or_concat rand with hr | ⟨r0, b, hb⟩
  · subst hr
    have : (newshardName []).getLast? = some 100 := by decide
    rw [this] at hlast
    simp at hlast
  · rw [List.concat_eq_append] at hb
    subst hb
    have hshape : newshardName (r0 ++ [b]) = (strBytes "newshard" ++ r0) ++ [b] := by
      simp [newshardName]
    have : (newshardName (r0 ++ [b])).getLast? = some b := by
      rw [hshape, List.getLast?_concat]
    rw [this] at hlast
    have hbd : isDigitByte b = true := List.all_eq_true.mp h b (by simp)
    simp [isDigitByte] at hbd
    have hb120 : b = 120 := by simpa using hlast
    omega

/-- Every path the merge scan selects ends in ".idx". -/
theorem mergeIndexFiles_suffix (u : Str) (names : List Str)
    (hu : u.isEmpty = false) (hn : ∀ n ∈ names, goodBase n = true) :
    ∀ p ∈ mergeIndexFiles u names, hasSuffix p (strBytes ".idx") = true := by
  intro p hp
  unfold mergeIndexFiles at hp
  rw [List.mem_map] at hp
  obtain ⟨n, hn1, hn2⟩ := hp
  have hfilt := List.of_mem_filter hn1
  have hnm : n ∈ names := List.mem_of_mem_filter hn1
  obtain ⟨pre, hpre⟩ := filepathJoin_goodBase u n hu (hn n hnm)
  rw [← hn2, hpre]
  exact hasSuffix_append_left pre n _ hfilt

/-- The path of a freshly created combined shard never appears among the
paths the merge scan selects. -/
theorem newshard_not_selected (u : Str) (names : List Str) (rand : Str)
    (hu : u.isEmpty = false) (hn : ∀ n ∈ names, goodBase n = true)
    (h : rand.all isDigitByte = true) :
    filepathJoin u (newshardName rand) ∉ mergeIndexFiles u names := by
  intro hc
  have hidx := mergeIndexFiles_suffix u names hu hn _ hc
  obtain ⟨pre, hpre⟩ := filepathJoin_goodBase u (newshardName rand) hu
    (goodBase_newshard rand h)
  rw [hpre] at hidx
  have hlast := hasSuffix_getLast hidx (by decide)
  rw [List.getLast?_append_of_ne_nil pre (by
    have := goodBase_ne_nil (goodBase_newshard rand h)
    cases hn2 : newshardName rand with
    | nil => rw [hn2] at this; simp at this
    | cons a t => simp)] at hlast
  have hidxlast : (strBytes ".idx").getLast? = some 120 := by decide
  rw [hidxlast] at hlast
  have hnot := newshardName_not_idx rand h
  rcases List.eq_nil_or_concat rand with hr | ⟨r0, b, hb⟩
  · subst hr
    have : (newshardName []).getLast? = some 100 := by decide
    rw [this] at hlast
    simp at hlast
  · rw [List.concat_eq_append] at hb
    subst hb
    have hshape : newshardName (r0 ++ [b]) = (strBytes "newshard" ++ r0) ++ [b] := by
      simp [newshardName]
    have : (newshardName (r0 ++ [b])).getLast? = some b := by
      rw [hshape, List.getLast?_concat]
    rw [this] at hlast
    have hbd : isDigitByte b = true := List.all_eq_true.mp h b (by simp)
    simp [isDigitByte] at hbd
    have hb120 : b = 120 := by simpa using hlast
    omega

/-! ## Claim theorems -/

/-- Counterexample for C1: with zero ".idx" files in the directory listing
and all filesystem calls succeeding, the merge is not a no-op: it still
creates a temporary output file and performs the bulk-merge call (with
an empty input list), contrary to the claim that zero or one shard file
makes the operation a no-op. -/
theorem merge_zero_shards_not_noop_cex :
    mergeIndexFiles (strBytes "/out") [] = [] ∧
    mergeToShard (strBytes "/out") [] (strBytes "123456")
      ⟨false, false, false, false⟩ [] =
      .done [.createTemp (strBytes "/out/newshard123456"),
             .concatN (strBytes "/out/newshard123456") []] ∧
    mergeToShard (strBytes "/out") [] (strBytes "123456")
      ⟨false, false, false, false⟩ [] ≠ .done [] :=
  ⟨by decide, by decide, by decide⟩

/-- Claim C1 (amended): the merge is a no-op exactly when the scan finds one
".idx" file; with zero ".idx" files it is not a no-op — a fresh
temporary output file is still created and the bulk-merge call is made
with an empty input list. -/
theorem merge_noop_iff_one_shard (u : Str) (names : List Str) (rand : Str)
    (e : MergeErrs) (cpu : Str)
    (hoe : e.openErr = false) (hre : e.readdirErr = false)
    (hpe : e.profErr = false) :
    ((mergeIndexFiles u names).length = 1 →
      mergeToShard u names rand e cpu = .done []) ∧
    (mergeIndexFiles u names = [] → e.tempErr = false →
      mergeToShard u names rand e cpu =
        .done [.createTemp (filepathJoin u (newshardName rand)),
               .concatN (filepathJoin u (newshardName rand)) []]) := by
  constructor
  · intro h1
    unfold mergeToShard
    simp [hoe, hre, h1]
  · intro h0 hte
    unfold mergeToShard
    simp [hoe, hre, h0, hte, hpe]

/-- Witness for C1: a listing with exactly one shard file produces a no-op
merge. -/
theorem merge_noop_iff_one_shard_witness :
    mergeToShard (strBytes "/out") [strBytes "a.idx"] (strBytes "1")
      ⟨false, false, false, false⟩ [] = .done [] :=
  (merge_noop_iff_one_shard (strBytes "/out") [strBytes "a.idx"] (strBytes "1")
    ⟨false, false, false, false⟩ [] rfl rfl rfl).1 (by decide)

/-- Counterexample for C2: a failure to open the shard output directory in
the merge handler — an error scoped to that one request — does not just
fail that request's response; it calls `log.Fatal` and terminates the
whole process. -/
theorem merge_request_error_kills_process_cex :
    mergeToShard (strBytes "/out") [strBytes "a.idx"] (strBytes "1")
      ⟨true, false, false, false⟩ [] = MergeOutcome.fatal :=
  by decide

/-- Claim C2 (amended): upload-request errors (mkdir, create, copy) produce an
HTTP error for that one request and never terminate the process, but in
the merge handler the failures to open or list the shard directory or
to create the temporary output file are fatal (`log.Fatal`), in
addition to the deletion failures of the tree walk. -/
theorem error_propagation_policy :
    (∀ (path : Str) (e : UploadErrs), importPackage path e ≠ .fatal) ∧
    (∀ (path : Str) (e : UploadErrs),
      e.mkdirErr = true ∨ e.createErr = true ∨ e.copyErr = true →
      importPackage path e = .httpError) ∧
    (∀ (u : Str) (names : List Str) (rand : Str) (e : MergeErrs) (cpu : Str),
      e.openErr = true → mergeToShard u names rand e cpu = .fatal) ∧
    (∀ (u : Str) (names : List Str) (rand : Str) (e : MergeErrs) (cpu : Str),
      e.openErr = false → e.readdirErr = true →
      mergeToShard u names rand e cpu = .fatal) ∧
    (∀ (u : Str) (names : List Str) (rand : Str) (e : MergeErrs) (cpu : Str),
      e.openErr = false → e.readdirErr = false → e.tempErr = true →
      (mergeIndexFiles u names).length ≠ 1 →
      mergeToShard u names rand e cpu = .fatal) ∧
    (∀ (igD igF : List Str) (strip : Nat) (dir name : Str) (regular addOk : Bool)
        (st : WSt), st.status = .running → goodBase name = true → name ∈ igF →
      (walkEntry igD igF strip dir
        (.file name regular true addOk false) st).2.status = .fatalStop) := by
  refine ⟨?_, ?_, ?_, ?_, ?_, ?_⟩
  · intro path e
    unfold importPackage
    split
    · simp
    · split
      · simp
      · split <;> simp
  · intro path e he
    unfold importPackage
    rcases he with h | h | h <;> simp [h]
  · intro u names rand e cpu h
    unfold mergeToShard
    simp [h]
  · intro u names rand e cpu h1 h2
    unfold mergeToShard
    simp [h1, h2]
  · intro u names rand e cpu h1 h2 h3 h4
    unfold mergeToShard
    simp [h1, h2, h3, h4]
  · intro igD igF strip dir name regular addOk st hst hname hF
    rw [walkEntry_file_char igD igF strip dir name regular true addOk false st hst hname]
    simp [hF, fatalSt]

/-- Witness for C2: a concrete failed upload yields only an HTTP error,
while a concrete failed merge directory listing is fatal. -/
theorem error_propagation_policy_witness :
    importPackage (strBytes "i3/i3.dsc") ⟨true, false, false⟩ = .httpError ∧
    mergeToShard (strBytes "/out") [] (strBytes "1")
      ⟨false, true, false, false⟩ [] = .fatal ∧
    (walkEntry mainConfig.ignoredDirnames mainConfig.ignoredFilenames 0
      (strBytes "/r") (.file (strBytes "NEWS") true true true false)
      initWSt).2.status = .fatalStop :=
  ⟨error_propagation_policy.2.1 _ _ (Or.inl rfl),
   error_propagation_policy.2.2.2.1 _ _ _ _ _ rfl rfl,
   error_propagation_policy.2.2.2.2.2 _ _ _ _ _ _ _ _ rfl (by decide) (by decide)⟩

/-- Counterexample for C3: a regular file with an invalid-UTF-8 path (and a
name matching no ignored set) survives a completed walk without ever
being submitted to `AddFile` and without being removed — it is merely
skipped — so "every regular file remaining under the unpack root was
either submitted to the Index Builder or removed" fails at this
input. -/
theorem walk_unindexed_file_remains_cex :
    wfEntry (.file [104, 255] true true true true) = true ∧
    utf8Valid (strBytes "/t0/p/p" ++ 47 :: [104, 255]) = false ∧
    (walkEntry mainConfig.ignoredDirnames mainConfig.ignoredFilenames 0
      (strBytes "/t0/p/p") (.file [104, 255] true true true true)
      initWSt).2.status = .running ∧
    ((walkEntry mainConfig.ignoredDirnames mainConfig.ignoredFilenames 0
      (strBytes "/t0/p/p") (.file [104, 255] true true true true)
      initWSt).1).isSome = true ∧
    (walkEntry mainConfig.ignoredDirnames mainConfig.ignoredFilenames 0
      (strBytes "/t0/p/p") (.file [104, 255] true true true true)
      initWSt).2.added = [] :=
  ⟨by decide, by decide, by decide, by decide, by decide⟩

/-- Claim C3 (amended): ignored-name directories are recursively deleted and
not descended into, ignored-name files are deleted, files failing
`AddFile` are deleted, each failing deletion aborts the process, and
after a completed walk every remaining regular file was submitted to
`AddFile` or was skipped because its path is not valid UTF-8. -/
theorem walk_delete_or_die :
    (∀ (igD igF : List Str) (strip : Nat) (dir name : Str) (children : EntryList)
        (st : WSt), st.status = .running → goodBase name = true → name ∈ igD →
      walkEntry igD igF strip dir (.dir name true true children) st = (none, st)) ∧
    (∀ (igD igF : List Str) (strip : Nat) (dir name : Str) (children : EntryList)
        (st : WSt), st.status = .running → goodBase name = true → name ∈ igD →
      (walkEntry igD igF strip dir (.dir name true false children) st).2.status
        = .fatalStop) ∧
    (∀ (igD igF : List Str) (strip : Nat) (dir name : Str) (regular addOk : Bool)
        (st : WSt), st.status = .running → goodBase name = true → name ∈ igF →
      walkEntry igD igF strip dir (.file name regular true addOk true) st
        = (none, st)) ∧
    (∀ (igD igF : List Str) (strip : Nat) (dir name : Str) (regular addOk : Bool)
        (st : WSt), st.status = .running → goodBase name = true → name ∈ igF →
      (walkEntry igD igF strip dir (.file name regular true addOk false) st).2.status
        = .fatalStop) ∧
    (∀ (igD igF : List Str) (strip : Nat) (dir name : Str) (st : WSt),
      st.status = .running → goodBase name = true → ¬ name ∈ igF →
      utf8Valid (dir ++ 47 :: name) = true →
      walkEntry igD igF strip dir (.file name true true false true) st
        = (none, st)) ∧
    (∀ (igD igF : List Str) (strip : Nat) (dir name : Str) (st : WSt),
      st.status = .running → goodBase name = true → ¬ name ∈ igF →
      utf8Valid (dir ++ 47 :: name) = true →
      (walkEntry igD igF strip dir (.file name true true false false) st).2.status
        = .fatalStop) ∧
    (∀ (igD igF : List Str) (strip : Nat) (dir : Str) (e : Entry),
      wfEntry e = true →
      (walkEntry igD igF strip dir e initWSt).2.status = .running →
      ∀ p ∈ regFilesOpt dir (walkEntry igD igF strip dir e initWSt).1,
        p ∈ addedPaths (walkEntry igD igF strip dir e initWSt).2 ∨
          utf8Valid p = false) := by
  refine ⟨?_, ?_, ?_, ?_, ?_, ?_, ?_⟩
  · intro igD igF strip dir name children st hst hname hD
    rw [walkEntry_dir_char igD igF strip dir name true true children st hst hname]
    simp [hD]
  · intro igD igF strip dir name children st hst hname hD
    rw [walkEntry_dir_char igD igF strip dir name true false children st hst hname]
    simp [hD, fatalSt]
  · intro igD igF strip dir name regular addOk st hst hname hF
    rw [walkEntry_file_char igD igF strip dir name regular true addOk true st hst hname]
    simp [hF]
  · intro igD igF strip dir name regular addOk st hst hname hF
    rw [walkEntry_file_char igD igF strip dir name regular true addOk false st hst hname]
    simp [hF, fatalSt]
  · intro igD igF strip dir name st hst hname hF hu
    rw [walkEntry_file_char igD igF strip dir name true true false true st hst hname]
    simp [hF, hu]
  · intro igD igF strip dir name st hst hname hF hu
    rw [walkEntry_file_char igD igF strip dir name true true false false st hst hname]
    simp [hF, hu, fatalSt]
  · intro igD igF strip dir e hwf hrun
    exact walkEntry_inv igD igF strip dir e initWSt hwf hrun

/-- Witness for C3: an ignored-name directory is deleted without descent and
an ignored-name file is deleted, in the default configuration. -/
theorem walk_delete_or_die_witness :
    walkEntry mainConfig.ignoredDirnames mainConfig.ignoredFilenames 0
      (strBytes "/r") (.dir (strBytes ".git") true true .nil) initWSt
      = (none, initWSt) ∧
    walkEntry mainConfig.ignoredDirnames mainConfig.ignoredFilenames 0
      (strBytes "/r") (.file (strBytes "NEWS") true true true true) initWSt
      = (none, initWSt) :=
  ⟨walk_delete_or_die.1 _ _ _ _ _ _ _ rfl (by decide) (by decide),
   walk_delete_or_die.2.2.1 _ _ _ _ _ _ _ _ rfl (by decide) (by decide)⟩

/-- Claim C4: a successfully stored upload enqueues exactly one Unpack Job
(the uploaded path) when the file name ends in ".dsc", and enqueues
nothing otherwise. -/
theorem upload_enqueue_iff_dsc (path : Str) (e : UploadErrs)
    (h1 : e.mkdirErr = false) (h2 : e.createErr = false)
    (h3 : e.copyErr = false) :
    (hasSuffix (filepathBase path) (strBytes ".dsc") = true →
      importPackage path e = .ok [path]) ∧
    (hasSuffix (filepathBase path) (strBytes ".dsc") = false →
      importPackage path e = .ok []) := by
  unfold importPackage
  constructor <;> intro h <;> simp [h1, h2, h3, h]

/-- Witness for C4: a descriptor upload enqueues exactly one job and a
non-descriptor upload enqueues none. -/
theorem upload_enqueue_iff_dsc_witness :
    importPackage (strBytes "i3/i3.dsc") ⟨false, false, false⟩
      = .ok [strBytes "i3/i3.dsc"] ∧
    importPackage (strBytes "i3/i3.orig.tar.bz2") ⟨false, false, false⟩
      = .ok [] :=
  ⟨(upload_enqueue_iff_dsc (strBytes "i3/i3.dsc") ⟨false, false, false⟩
      rfl rfl rfl).1 (by decide),
   (upload_enqueue_iff_dsc (strBytes "i3/i3.orig.tar.bz2") ⟨false, false, false⟩
      rfl rfl rfl).2 (by decide)⟩

/-- Claim C5: when the unpack tool fails for a dequeued job, the worker
performs no index-builder effect at all — in particular it creates no
shard — and the loop's behavior on the remaining jobs is exactly as if
the failed job had never been dequeued. -/
theorem unpack_failure_skips_package (igD igF : List Str) (tmpdir : Str)
    (j : Job) (rest : List Job) (h : j.unpackOk = false) :
    processJobEffs igD igF tmpdir j = ([], true) ∧
    runJobs igD igF tmpdir (j :: rest) = runJobs igD igF tmpdir rest := by
  have h1 : processJobEffs igD igF tmpdir j = ([], true) := by
    unfold processJobEffs
    simp [h]
  refine ⟨h1, ?_⟩
  conv_lhs => rw [runJobs]
  rw [h1]
  simp

/-- Witness for C5: a concrete failing job contributes nothing and the
queue continues. -/
theorem unpack_failure_skips_package_witness :
    runJobs [] [] (strBytes "/t")
      [⟨strBytes "p/x.dsc", false, .file (strBytes "a") true true true true⟩,
       ⟨strBytes "q/y.dsc", false, .file (strBytes "b") true true true true⟩]
      = runJobs [] [] (strBytes "/t")
        [⟨strBytes "q/y.dsc", false, .file (strBytes "b") true true true true⟩] :=
  (unpack_failure_skips_package [] [] (strBytes "/t")
    ⟨strBytes "p/x.dsc", false, .file (strBytes "a") true true true true⟩
    [⟨strBytes "q/y.dsc", false, .file (strBytes "b") true true true true⟩] rfl).2

/-- Counterexample for C6: a regular file whose path is not valid UTF-8 but
whose base name is in the ignored-filename set is deleted by the
ignored-filename branch — it is neither skipped nor logged — so "every
regular file whose path is not valid UTF-8 is skipped and logged" fails
at this input (the file here is "NEWS" under a directory whose name
contains the invalid byte 0xFF). -/
theorem invalid_utf8_ignored_name_removed_cex :
    utf8Valid ([47, 116, 255] ++ 47 :: strBytes "NEWS") = false ∧
    ((walkEntry mainConfig.ignoredDirnames mainConfig.ignoredFilenames 0
      [47, 116, 255] (.file (strBytes "NEWS") true true true true)
      initWSt).1).isNone = true ∧
    (walkEntry mainConfig.ignoredDirnames mainConfig.ignoredFilenames 0
      [47, 116, 255] (.file (strBytes "NEWS") true true true true)
      initWSt).2.logged = [] ∧
    (walkEntry mainConfig.ignoredDirnames mainConfig.ignoredFilenames 0
      [47, 116, 255] (.file (strBytes "NEWS") true true true true)
      initWSt).2.status = .running :=
  ⟨by decide, by decide, by decide, by decide⟩

/-- Claim C6 (amended): a regular file with an invalid-UTF-8 path whose base
name is not in the ignored-filename set is skipped and logged; the
callback only ever emits an `AddFile` effect for a UTF-8-valid path;
and every path recorded as submitted by a whole walk is valid UTF-8. -/
theorem utf8_guard_on_addFile :
    (∀ (igD igF : List Str) (strip : Nat) (dir name : Str) (addOk rmOk : Bool)
        (st : WSt), st.status = .running → goodBase name = true → ¬ name ∈ igF →
      utf8Valid (dir ++ 47 :: name) = false →
      walkEntry igD igF strip dir (.file name true true addOk rmOk) st
        = (some (.file name true true addOk rmOk),
           logSt st (dir ++ 47 :: name))) ∧
    (∀ (igD igF : List Str) (strip : Nat) (path : Str) (info : Option FInfo)
        (addOk rmOk : Bool) (p rel : Str),
      Eff.addFile p rel ∈ (walkFn igD igF strip path info addOk rmOk).effs →
      utf8Valid p = true) ∧
    (∀ (igD igF : List Str) (strip : Nat) (dir : Str) (e : Entry) (p rel : Str),
      (p, rel) ∈ (walkEntry igD igF strip dir e initWSt).2.added →
      utf8Valid p = true) := by
  refine ⟨?_, ?_, ?_⟩
  · intro igD igF strip dir name addOk rmOk st hst hname hF hu
    rw [walkEntry_file_char igD igF strip dir name true true addOk rmOk st hst hname]
    simp [hF, hu]
  · intro igD igF strip path info addOk rmOk p rel h
    exact walkFn_addFile_valid igD igF strip path info addOk rmOk p rel h
  · intro igD igF strip dir e p rel h
    rcases walkEntry_added_valid igD igF strip dir e initWSt p rel h with h1 | h2
    · simp [initWSt] at h1
    · exact h2

/-- Witness for C6: a concrete invalid-UTF-8 regular file is skipped and
logged, and a concrete walk only submits valid paths. -/
theorem utf8_guard_on_addFile_witness :
    walkEntry mainConfig.ignoredDirnames mainConfig.ignoredFilenames 0
      (strBytes "/r") (.file [104, 255] true true true true) initWSt
      = (some (.file [104, 255] true true true true),
         logSt initWSt (strBytes "/r" ++ 47 :: [104, 255])) ∧
    utf8Valid (strBytes "/r/a.c") = true :=
  ⟨utf8_guard_on_addFile.1 _ _ _ _ _ _ _ _ rfl (by decide) (by decide) (by decide),
   utf8_guard_on_addFile.2.2 mainConfig.ignoredDirnames mainConfig.ignoredFilenames
     0 (strBytes "/r") (.file (strBytes "a.c") true true true true)
     (strBytes "/r/a.c") (strBytes "/r/a.c") (by decide)⟩

/-- Claim C7: with two or more shard files discovered (and the request-scoped
calls succeeding), the merge performs exactly two effects — creating
one fresh temp file in the same directory and one bulk `ConcatN` of all
discovered shards into it — and the output path differs from every
input path; no effect deletes or writes any input. -/
theorem merge_bulk_fresh_output (u : Str) (names : List Str) (rand : Str)
    (e : MergeErrs) (cpu : Str)
    (hu : u.isEmpty = false)
    (hnames : ∀ n ∈ names, goodBase n = true)
    (hrand : rand.all isDigitByte = true)
    (hlen : 2 ≤ (mergeIndexFiles u names).length)
    (hoe : e.openErr = false) (hre : e.readdirErr = false)
    (hte : e.tempErr = false) (hpe : e.profErr = false) :
    mergeToShard u names rand e cpu =
      .done [.createTemp (filepathJoin u (newshardName rand)),
             .concatN (filepathJoin u (newshardName rand))
               (mergeIndexFiles u names)] ∧
    filepathJoin u (newshardName rand) ∉ mergeIndexFiles u names := by
  constructor
  · unfold mergeToShard
    have hne1 : ¬ (mergeIndexFiles u names).length = 1 := by omega
    simp [hoe, hre, hne1, hte, hpe]
  · exact newshard_not_selected u names rand hu hnames hrand

/-- Witness for C7: three concrete shard files are merged by one bulk call
into a fresh output distinct from all three. -/
theorem merge_bulk_fresh_output_witness :
    mergeToShard (strBytes "/out")
      [strBytes "a.idx", strBytes "b.idx", strBytes "c.idx"] (strBytes "42")
      ⟨false, false, false, false⟩ [] =
      .done [.createTemp (strBytes "/out/newshard42"),
             .concatN (strBytes "/out/newshard42")
               [strBytes "/out/a.idx", strBytes "/out/b.idx", strBytes "/out/c.idx"]] ∧
    strBytes "/out/newshard42"
      ∉ [strBytes "/out/a.idx", strBytes "/out/b.idx", strBytes "/out/c.idx"] := by
  have h := merge_bulk_fresh_output (strBytes "/out")
    [strBytes "a.idx", strBytes "b.idx", strBytes "c.idx"] (strBytes "42")
    ⟨false, false, false, false⟩ [] (by decide) (by decide) (by decide)
    (by decide) rfl rfl rfl rfl
  constructor
  · have h1 := h.1
    rwa [show filepathJoin (strBytes "/out") (newshardName (strBytes "42"))
        = strBytes "/out/newshard42" from by decide,
      show mergeIndexFiles (strBytes "/out")
          [strBytes "a.idx", strBytes "b.idx", strBytes "c.idx"]
        = [strBytes "/out/a.idx", strBytes "/out/b.idx", strBytes "/out/c.idx"]
        from by decide] at h1
  · have h2 := h.2
    rwa [show filepathJoin (strBytes "/out") (newshardName (strBytes "42"))
        = strBytes "/out/newshard42" from by decide,
      show mergeIndexFiles (strBytes "/out")
          [strBytes "a.idx", strBytes "b.idx", strBytes "c.idx"]
        = [strBytes "/out/a.idx", strBytes "/out/b.idx", strBytes "/out/c.idx"]
        from by decide] at h2

/-- Claim C8: the ignored-suffix set is loaded once at startup from the flag
default, but the walk is entirely independent of it: replacing the
suffix set by any other set leaves every walk result unchanged. -/
theorem ignored_suffixes_loaded_never_consulted :
    mainConfig.ignoredSuffixes =
      [strBytes "conf", strBytes "dic", strBytes "cfg", strBytes "man",
       strBytes "xml", strBytes "xsl", strBytes "html", strBytes "sgml",
       strBytes "pod", strBytes "po", strBytes "txt", strBytes "tex",
       strBytes "rtf", strBytes "docbook", strBytes "symbols"] ∧
    (∀ (d f s₁ s₂ : List Str) (strip : Nat) (dir : Str) (e : Entry) (st : WSt),
      walkEntryC ⟨d, f, s₁⟩ strip dir e st = walkEntryC ⟨d, f, s₂⟩ strip dir e st) :=
  ⟨by decide, fun _ _ _ _ _ _ _ _ => rfl⟩

/-- Claim C9: when the walk reports an entry it could not stat, the callback
receives a nil file-info; for any path with a non-empty base name the
callback dereferences that nil info via `IsDir` before its nil-info
guard, so it panics instead of skipping the entry, and a walk reaching
such an entry dies. -/
theorem nil_fileinfo_panics (igD igF : List Str) (strip : Nat) (path : Str)
    (addOk rmOk : Bool) (h : ¬ splitBase path = []) :
    walkFn igD igF strip path none addOk rmOk = ⟨.panicked, []⟩ ∧
    (∀ (dir name : Str) (regular aOk rOk : Bool) (st : WSt),
      st.status = .running → goodBase name = true →
      (walkEntry igD igF strip dir (.file name regular false aOk rOk) st).2.status
        = .panicStop) := by
  constructor
  · have hne : (splitBase path).isEmpty = false := by
      cases hsp : splitBase path with
      | nil => exact absurd hsp h
      | cons a t => rfl
    unfold walkFn
    simp [hne]
  · intro dir name regular aOk rOk st hst hname
    rw [walkEntry_file_char igD igF strip dir name regular false aOk rOk st hst hname]
    simp [panicSt]

/-- Witness for C9: a concrete nil-info entry panics the callback. -/
theorem nil_fileinfo_panics_witness :
    walkFn [] [] 0 (strBytes "/r/x") none true true = ⟨.panicked, []⟩ :=
  (nil_fileinfo_panics [] [] 0 (strBytes "/r/x") true true (by decide)).1

/-- Claim C10: a combined shard is written to `newshard<digits>`, which never
ends in ".idx" and always starts with "newshard"; since the merge scan
selects only ".idx"-suffixed names, no merge ever takes a previously
produced combined shard as input. -/
theorem merge_never_consumes_combined (u : Str) (names : List Str)
    (randPrev rand : Str) (e : MergeErrs) (cpu : Str) (effs : List MergeEff)
    (hu : u.isEmpty = false)
    (hnames : ∀ n ∈ names, goodBase n = true)
    (hprev : randPrev.all isDigitByte = true) :
    hasSuffix (newshardName randPrev) (strBytes ".idx") = false ∧
    (∃ t, strBytes "newshard" ++ t = newshardName randPrev) ∧
    (mergeToShard u names rand e cpu = .done effs →
      ∀ dst srcs, MergeEff.concatN dst srcs ∈ effs →
        filepathJoin u (newshardName randPrev) ∉ srcs) := by
  refine ⟨newshardName_not_idx randPrev hprev, ⟨randPrev, rfl⟩, ?_⟩
  intro hdone dst srcs hmem
  unfold mergeToShard at hdone
  by_cases ho : e.openErr = true
  · simp [ho] at hdone
  · simp only [Bool.not_eq_true] at ho
    by_cases hr : e.readdirErr = true
    · simp [ho, hr] at hdone
    · simp only [Bool.not_eq_true] at hr
      by_cases hlen : (mergeIndexFiles u names).length = 1
      · simp [ho, hr, hlen] at hdone
        subst hdone
        simp at hmem
      · by_cases ht : e.tempErr = true
        · simp [ho, hr, hlen, ht] at hdone
        · simp only [Bool.not_eq_true] at ht
          by_cases hp : cpu.isEmpty = false ∧ e.profErr = true
          · simp [ho, hr, hlen, ht, hp.1, hp.2] at hdone
          · have heffs : effs =
                [.createTemp (filepathJoin u (newshardName rand)),
                 .concatN (filepathJoin u (newshardName rand))
                   (mergeIndexFiles u names)] := by
              rcases Decidable.not_and_iff_or_not.mp hp with hc | hc
              · have hc' : cpu.isEmpty = true := by simpa using hc
                simp [ho, hr, hlen, ht, hc'] at hdone
                exact hdone.symm
              · have hc' : e.profErr = false := by simpa using hc
                simp [ho, hr, hlen, ht, hc'] at hdone
                exact hdone.symm
            subst heffs
            rcases List.mem_cons.mp hmem with hm1 | hm2
            · exact absurd hm1 (by simp)
            · have hm3 := List.mem_singleton.mp hm2
              have hsrcs : srcs = mergeIndexFiles u names := by
                injection hm3 with h1 h2
              rw [hsrcs]
              exact newshard_not_selected u names randPrev hu hnames hprev

/-- Witness for C10: a concretely named combined shard from an earlier merge
is not among the inputs a later merge selects. -/
theorem merge_never_consumes_combined_witness :
    strBytes "/out/newshard7"
      ∉ [strBytes "/out/a.idx", strBytes "/out/b.idx"] := by
  have h := (merge_never_consumes_combined (strBytes "/out")
    [strBytes "a.idx", strBytes "b.idx", strBytes "newshard7"]
    (strBytes "7") (strBytes "9") ⟨false, false, false, false⟩ []
    [.createTemp (strBytes "/out/newshard9"),
     .concatN (strBytes "/out/newshard9")
       [strBytes "/out/a.idx", strBytes "/out/b.idx"]]
    (by decide) (by decide) (by decide)).2.2 (by decide)
  have h2 := h (strBytes "/out/newshard9")
    [strBytes "/out/a.idx", strBytes "/out/b.idx"] (by decide)
  rwa [show filepathJoin (strBytes "/out") (newshardName (strBytes "7"))
      = strBytes "/out/newshard7" from by decide] at h2
